import Mathlib

/-!
Verification development for the MongoDB bundle described by this
documentation repository (migration runner, event dispatcher, behaviors,
transactions, Nova query projection).  The repository ships documentation
only; every definition below is modelled from the specification's
reconstruction of the subsystem it describes.
-/

namespace MongoBundle

/-! ## Migration runner -/

/-- Modelled from the spec: a registered migration.  The `up`/`down`
functions are not implemented in this repository; their outcomes are
supplied to the runner as parameters. -/
structure Migration where
  version : Nat
  name : String
  deriving Repr, DecidableEq

/-- Modelled from the spec: the `lastError` component of the persisted
status, `{ fromVersion, message }`. -/
structure MigLastError where
  fromVersion : Nat
  message : String
  deriving Repr, DecidableEq

/-- Modelled from the spec: the persisted `IMigrationStatus` record
`{ version, locked, lockedAt?, lastError? }` stored in the `migrations`
collection.  Timestamps are abstracted to naturals. -/
structure MigrationStatus where
  version : Nat
  locked : Bool
  lockedAt : Option Nat
  lastError : Option MigLastError
  deriving Repr, DecidableEq

/-- Modelled from the spec: errors the runner raises to its caller. -/
inductive MigrationError where
  | lockConflict
  deriving Repr, DecidableEq

/-- Ordering of migrations by version number. -/
def byVersionLE (a b : Migration) : Prop := a.version ≤ b.version

instance : DecidableRel byVersionLE := fun a b => Nat.decLe a.version b.version

instance : IsTotal Migration byVersionLE := ⟨fun a b => Nat.le_total a.version b.version⟩

instance : IsTrans Migration byVersionLE := ⟨fun _ _ _ hab hbc => Nat.le_trans hab hbc⟩

/-- Modelled from the spec: atomically acquire the persisted lock; fails
with a lock conflict when already locked, raised immediately with no
retry. -/
def acquireLock (now : Nat) (st : MigrationStatus) : Except MigrationError MigrationStatus :=
  if st.locked then .error .lockConflict
  else .ok { st with locked := true, lockedAt := some now }

/-- Modelled from the spec: clear the lock flag on completion or failure. -/
def releaseLock (st : MigrationStatus) : MigrationStatus :=
  { st with locked := false }

/-- Modelled from the spec: the migrations pending for `migrateToLatest`
from stored version `v`: all registered migrations with version greater
than `v`, in ascending version order. -/
def pendingUp (migs : List Migration) (v : Nat) : List Migration :=
  List.insertionSort byVersionLE (migs.filter (fun m => decide (v < m.version)))

/-- Modelled from the spec: run the pending `up` steps in order,
persisting the new stored version after each successful step; a failing
step records `lastError` (source version and message) and halts the
remaining sequence without rolling back earlier steps.  Returns the final
status together with the versions applied, in execution order. -/
def runUp (up : Migration → Except String Unit) :
    List Migration → MigrationStatus → List Nat → MigrationStatus × List Nat
  | [], st, log => (st, log)
  | m :: rest, st, log =>
    match up m with
    | .ok _ => runUp up rest { st with version := m.version } (log ++ [m.version])
    | .error msg => ({ st with lastError := some ⟨st.version, msg⟩ }, log)

/-- Modelled from the spec: `migrationService.migrateToLatest()` —
acquire the lock (failing immediately on conflict), run every migration
with version above the stored version in ascending order, then release
the lock whether or not a step failed. -/
def migrateToLatest (migs : List Migration) (up : Migration → Except String Unit)
    (now : Nat) (st : MigrationStatus) :
    Except MigrationError (MigrationStatus × List Nat) :=
  match acquireLock now st with
  | .error e => .error e
  | .ok locked =>
    let out := runUp up (pendingUp migs locked.version) locked []
    .ok (releaseLock out.1, out.2)

/-- Modelled from the spec: the migrations pending for a forward
`migrateTo(target)`: registered versions in `(cur, target]`, ascending. -/
def pendingUpTo (migs : List Migration) (cur target : Nat) : List Migration :=
  List.insertionSort byVersionLE
    (migs.filter (fun m => decide (cur < m.version ∧ m.version ≤ target)))

/-- Modelled from the spec: the migrations pending for a backward
`migrateTo(target)`: registered versions in `(target, cur]`, descending. -/
def pendingDown (migs : List Migration) (target cur : Nat) : List Migration :=
  (List.insertionSort byVersionLE
    (migs.filter (fun m => decide (target < m.version ∧ m.version ≤ cur)))).reverse

/-- Modelled from the spec: run `down` steps in descending order; after
undoing a migration the persisted version becomes the version of the next
migration still applied (or the target when none remains).  A failing
step records `lastError` and halts. -/
def runDown (down : Migration → Except String Unit) (target : Nat) :
    List Migration → MigrationStatus → List Nat → MigrationStatus × List Nat
  | [], st, log => (st, log)
  | m :: rest, st, log =>
    match down m with
    | .ok _ =>
      runDown down target rest
        { st with version := match rest with | [] => target | m' :: _ => m'.version }
        (log ++ [m.version])
    | .error msg => ({ st with lastError := some ⟨st.version, msg⟩ }, log)

/-- Modelled from the spec: `migrationService.migrateTo(version)` — same
locking protocol as `migrateToLatest`, but runs only the migrations
between the stored version and the target (`up` ascending when moving
forward, `down` descending when moving backward). -/
def migrateTo (migs : List Migration) (up down : Migration → Except String Unit)
    (target now : Nat) (st : MigrationStatus) :
    Except MigrationError (MigrationStatus × List Nat) :=
  match acquireLock now st with
  | .error e => .error e
  | .ok locked =>
    if locked.version < target then
      let out := runUp up (pendingUpTo migs locked.version target) locked []
      .ok (releaseLock out.1, out.2)
    else if target < locked.version then
      let out := runDown down target (pendingDown migs target locked.version) locked []
      .ok (releaseLock out.1, out.2)
    else
      .ok (releaseLock locked, [])

/-- The stored version reached after successfully applying every
migration of `l` in order, starting from `d`: the last version of `l`,
or `d` when `l` is empty. -/
def verAfter (l : List Migration) (d : Nat) : Nat :=
  (l.map Migration.version).foldl (fun _ v => v) d

/-! ## Event dispatcher -/

/-- Modelled from the spec: the lifecycle event kinds
(before/after × insert/update/remove). -/
inductive EventKind where
  | beforeInsert | afterInsert
  | beforeUpdate | afterUpdate
  | beforeRemove | afterRemove
  deriving Repr, DecidableEq

/-- Modelled from the spec: an awaited event handler; modelled as a state
transformer that may fail. -/
def Handler (σ : Type) := σ → Except String σ

/-- Modelled from the spec: an event manager holding its listeners in
registration order. -/
structure EventManager (σ : Type) where
  listeners : List (EventKind × Handler σ)

/-- Modelled from the spec: `addListener(eventKind, handler)` appends the
handler to the registration list for that kind. -/
def addListener {σ : Type} (em : EventManager σ) (k : EventKind) (h : Handler σ) :
    EventManager σ :=
  { listeners := em.listeners ++ [(k, h)] }

/-- The handlers registered for kind `k`, in registration order. -/
def matchingHandlers {σ : Type} (em : EventManager σ) (k : EventKind) : List (Handler σ) :=
  (em.listeners.filter (fun p => decide (p.1 = k))).map Prod.snd

/-- Modelled from the spec: invoke handlers sequentially, awaiting each;
a raising handler stops the sequence and surfaces its error. -/
def runHandlers {σ : Type} : List (Handler σ) → σ → σ × Option String
  | [], s => (s, none)
  | h :: hs, s =>
    match h s with
    | .ok s' => runHandlers hs s'
    | .error e => (s, some e)

/-- Modelled from the spec: `dispatch(event)` runs all handlers matching
the event's kind sequentially in registration order. -/
def dispatch {σ : Type} (em : EventManager σ) (k : EventKind) (s : σ) : σ × Option String :=
  runHandlers (matchingHandlers em k) s

/-- Instrumentation: handler number `i` appends `i` to the log when its
prescribed outcome `beh i` is success, and raises otherwise. -/
def idHandler (beh : Nat → Option String) (i : Nat) : Handler (List Nat) :=
  fun s =>
    match beh i with
    | none => .ok (s ++ [i])
    | some e => .error e

/-- Register instrumented handlers for the given (kind, id) sequence, in
order, on a fresh event manager. -/
def registerAll (beh : Nat → Option String) (regs : List (EventKind × Nat)) :
    EventManager (List Nat) :=
  regs.foldl (fun em p => addListener em p.1 (idHandler beh p.2)) ⟨[]⟩

/-- The instrumented handler ids matching kind `k`, in registration order. -/
def matchingIds (regs : List (EventKind × Nat)) (k : EventKind) : List Nat :=
  (regs.filter (fun p => decide (p.1 = k))).map Prod.snd

/-! ## Collection wrapper vs raw driver -/

/-- Modelled from the spec: the mutation operation families exposed by a
collection. -/
inductive MutationKind where
  | insert | update | remove
  deriving Repr, DecidableEq

/-- The before-event kind of a mutation. -/
def beforeEventOf : MutationKind → EventKind
  | .insert => .beforeInsert
  | .update => .beforeUpdate
  | .remove => .beforeRemove

/-- The after-event kind of a mutation. -/
def afterEventOf : MutationKind → EventKind
  | .insert => .afterInsert
  | .update => .afterUpdate
  | .remove => .afterRemove

/-- Modelled from the spec: a collection's observable state — its
persisted documents plus the log of lifecycle events dispatched so far. -/
structure CollectionState where
  docs : List String
  dispatched : List EventKind
  deriving Repr, DecidableEq

/-- Modelled from the spec: a mutation performed on the raw driver handle
(`usersCollection.collection.*`) applies the write and dispatches no
lifecycle event. -/
def rawMutation (apply : List String → List String) (s : CollectionState) :
    CollectionState :=
  { s with docs := apply s.docs }

/-- Modelled from the spec: the same mutation performed through the
collection wrapper (`usersCollection.*`) dispatches the before event,
applies the write, then dispatches the after event. -/
def wrapperMutation (k : MutationKind) (apply : List String → List String)
    (s : CollectionState) : CollectionState :=
  let s1 := { s with dispatched := s.dispatched ++ [beforeEventOf k] }
  let s2 := { s1 with docs := apply s1.docs }
  { s2 with dispatched := s2.dispatched ++ [afterEventOf k] }

/-! ## Blameable behavior -/

/-- Modelled from the spec: a document / context is a record of fields,
each holding a nullable value; a field may be absent (undefined), present
and null, or present with a value. -/
abbrev FieldMap := List (String × Option String)

/-- Modelled from the spec: Blameable's configuration — the field names
to save and the context field carrying the actor identity. -/
structure BlameableConfig where
  createdBy : String
  updatedBy : String
  userIdFieldFromContext : String

/-- Modelled from the spec: resolve the actor identity from the
operation's context.  An absent key (undefined) raises; a key present
with `null` or a value is accepted. -/
def blameableResolveUserId (userIdField : String) (ctx : FieldMap) :
    Except String (Option String) :=
  match ctx.lookup userIdField with
  | none => .error ("Missing " ++ userIdField ++ " in context")
  | some v => .ok v

/-- Modelled from the spec: Blameable's before-insert hook — raises when
the context lacks the actor field, otherwise stamps the configured
fields. -/
def blameableOnInsert (cfg : BlameableConfig) (ctx : FieldMap) (d : FieldMap) :
    Except String FieldMap :=
  match blameableResolveUserId cfg.userIdFieldFromContext ctx with
  | .error e => .error e
  | .ok uid => .ok (d ++ [(cfg.createdBy, uid), (cfg.updatedBy, uid)])

/-- Modelled from the spec: `insertOne` on a Blameable collection — the
behavior's precondition runs synchronously before the write; on failure
the store is unchanged and the error is surfaced, otherwise the stamped
document is persisted. -/
def blameableInsertOne (cfg : BlameableConfig) (store : List FieldMap)
    (d : FieldMap) (ctx : FieldMap) : List FieldMap × Option String :=
  match blameableOnInsert cfg ctx d with
  | .error e => (store, some e)
  | .ok d' => (store ++ [d'], none)

/-! ## Transactions -/

/-- Modelled from the spec: a write performed inside a transaction
session. -/
inductive WriteOp where
  | insertDoc (collection : String) (d : FieldMap)
  | updateDoc (collection : String) (filter : String) (modifier : String)
  deriving Repr, DecidableEq

/-- Modelled from the spec: the persisted database state, abstracted as
the sequence of committed writes. -/
abbrev Store := List WriteOp

/-- Modelled from the spec: a transaction session accumulating the writes
performed in its scope. -/
structure TxSession where
  writes : List WriteOp
  deriving Repr, DecidableEq

/-- Modelled from the spec: `dbService.transact(body)` — on success all
session writes are committed; any exception raised in the body (including
by a listener of one of its writes) rolls back every write of the scope,
leaving the store unchanged. -/
def transact (body : TxSession → Except String TxSession) (store : Store) :
    Store × Option String :=
  match body { writes := [] } with
  | .ok sess => (store ++ sess.writes, none)
  | .error e => (store, some e)

/-- Modelled from the spec: a collection write inside a session — it
records the write, then dispatches its event listener; a listener error
propagates out of the transaction body. -/
def sessionWrite (w : WriteOp) (listenerResult : Except String Unit)
    (sess : TxSession) : Except String TxSession :=
  match listenerResult with
  | .ok _ => .ok { writes := sess.writes ++ [w] }
  | .error e => .error e

/-! ## Nova query projection: reducers and expanders -/

/-- Modelled from the spec: a fetched document, a record of raw field
values. -/
abbrev NovaDoc := List (String × String)

/-- Modelled from the spec: a reducer — declared dependency fields and a
pure function computing the field from them. -/
structure Reducer where
  dependency : List String
  reduce : NovaDoc → String

/-- Project a document onto a set of fields. -/
def project (doc : NovaDoc) (fields : List String) : NovaDoc :=
  doc.filter (fun kv => decide (kv.1 ∈ fields))

/-- Modelled from the spec: the raw fields the engine must fetch —
requested non-reducer fields plus the declared dependencies of every
requested reducer field. -/
def fetchFields (requested : List String) (reducers : List (String × Reducer)) :
    List String :=
  requested.filter (fun f => (reducers.lookup f).isNone) ++
    requested.flatMap (fun f =>
      match reducers.lookup f with
      | some r => r.dependency
      | none => [])

/-- Modelled from the spec: the post-processing pass computing each
requested reducer field from its fetched dependencies. -/
def computeReducers (requested : List String) (reducers : List (String × Reducer))
    (fetched : NovaDoc) : NovaDoc :=
  requested.filterMap (fun f =>
    (reducers.lookup f).map (fun r => (f, r.reduce (project fetched r.dependency))))

/-- Modelled from the spec: a Nova query with reducers — fetch the needed
raw fields, compute reducer fields, then strip every field not explicitly
requested. -/
def novaQuery (doc : NovaDoc) (requested : List String)
    (reducers : List (String × Reducer)) : NovaDoc :=
  let fetched := project doc (fetchFields requested reducers)
  project (fetched ++ computeReducers requested reducers fetched) requested

/-- Modelled from the spec: expanders — a requested computed field is
replaced in the underlying query by its declared set of raw fields; a
non-expander field is fetched as itself. -/
def expandFields (requested : List String) (expanders : List (String × List String)) :
    List String :=
  requested.flatMap (fun f =>
    match expanders.lookup f with
    | some raws => raws
    | none => [f])

/-- Modelled from the spec: a Nova query with expanders — the engine
fetches the substituted raw fields; computing the expanded field is left
to the document model. -/
def novaQueryExpand (doc : NovaDoc) (requested : List String)
    (expanders : List (String × List String)) : NovaDoc :=
  project doc (expandFields requested expanders)

/-! ## Lemmas about the migration runner -/

theorem getLastD_cons (a d : Nat) (xs : List Nat) :
    ((a :: xs).getLast?).getD d = (xs.getLast?).getD a := by
  induction xs generalizing a d with
  | nil => rfl
  | cons b xs ih => rw [List.getLast?_cons_cons, ih b d, ih b a]

theorem verAfter_nil (d : Nat) : verAfter [] d = d := rfl

theorem verAfter_cons (m : Migration) (rest : List Migration) (d : Nat) :
    verAfter (m :: rest) d = verAfter rest m.version := rfl

theorem verAfter_eq_getLastD (l : List Migration) (d : Nat) :
    verAfter l d = ((l.map Migration.version).getLast?).getD d := by
  induction l generalizing d with
  | nil => rfl
  | cons m rest ih =>
    rw [verAfter_cons, ih m.version, List.map_cons, getLastD_cons]

theorem runUp_all_ok (up : Migration → Except String Unit) (l : List Migration)
    (st : MigrationStatus) (log : List Nat)
    (h : ∀ m ∈ l, up m = .ok ()) :
    runUp up l st log =
      ({ st with version := verAfter l st.version },
        log ++ l.map Migration.version) := by
  induction l generalizing st log with
  | nil => simp [runUp, verAfter_nil]
  | cons m rest ih =>
    have hm : up m = .ok () := h m (List.mem_cons_self m rest)
    rw [runUp, hm, ih _ _ (fun m' hm' => h m' (List.mem_cons_of_mem m hm'))]
    simp [verAfter_cons]

theorem runUp_fails_at (up : Migration → Except String Unit)
    (done : List Migration) (f : Migration) (rest : List Migration)
    (st : MigrationStatus) (log : List Nat) (msg : String)
    (hdone : ∀ m ∈ done, up m = .ok ())
    (hf : up f = .error msg) :
    runUp up (done ++ f :: rest) st log =
      ({ st with
          version := verAfter done st.version
          lastError := some ⟨verAfter done st.version, msg⟩ },
        log ++ done.map Migration.version) := by
  induction done generalizing st log with
  | nil => simp [runUp, hf, verAfter_nil]
  | cons m done' ih =>
    have hm : up m = .ok () := hdone m (List.mem_cons_self m done')
    rw [List.cons_append, runUp, hm,
      ih _ _ (fun m' hm' => hdone m' (List.mem_cons_of_mem m hm'))]
    simp [verAfter_cons]

theorem mem_pendingUp (migs : List Migration) (v : Nat) (m : Migration) :
    m ∈ pendingUp migs v ↔ m ∈ migs ∧ v < m.version := by
  simp [pendingUp, List.mem_insertionSort, List.mem_filter]

theorem sorted_pendingUp (migs : List Migration) (v : Nat) :
    List.Sorted byVersionLE (pendingUp migs v) :=
  List.sorted_insertionSort byVersionLE _

theorem nodup_map_version_pendingUp (migs : List Migration) (v : Nat)
    (hnd : (migs.map Migration.version).Nodup) :
    ((pendingUp migs v).map Migration.version).Nodup := by
  have hperm : List.Perm (pendingUp migs v) (migs.filter (fun m => decide (v < m.version))) :=
    List.perm_insertionSort byVersionLE _
  have hsub : List.Sublist
      ((migs.filter (fun m => decide (v < m.version))).map Migration.version)
      (migs.map Migration.version) :=
    (List.filter_sublist migs).map Migration.version
  exact ((hperm.map Migration.version).nodup_iff).mpr (hsub.nodup hnd)

theorem pairwise_lt_map_version_pendingUp (migs : List Migration) (v : Nat)
    (hnd : (migs.map Migration.version).Nodup) :
    ((pendingUp migs v).map Migration.version).Pairwise (· < ·) := by
  have hsorted : (pendingUp migs v).Pairwise byVersionLE := sorted_pendingUp migs v
  have hle : ((pendingUp migs v).map Migration.version).Pairwise (· ≤ ·) :=
    List.pairwise_map.mpr hsorted
  have hne : ((pendingUp migs v).map Migration.version).Pairwise (· ≠ ·) :=
    nodup_map_version_pendingUp migs v hnd
  exact (hle.and hne).imp (fun h => lt_of_le_of_ne h.1 h.2)

/-- C1: for every set of registered migrations (with distinct versions)
and every unlocked stored status, when every `up` step succeeds,
`migrateToLatest()` applies exactly the migrations whose version is
greater than the stored version, in strictly ascending version order,
and the persisted version afterwards is that of the last applied step
(the stored version when none was pending); the lock is released. -/
theorem migrateToLatest_applies_pending_ascending
    (migs : List Migration) (up : Migration → Except String Unit) (now : Nat)
    (st : MigrationStatus)
    (hlock : st.locked = false)
    (hok : ∀ m ∈ migs, up m = .ok ())
    (hnd : (migs.map Migration.version).Nodup) :
    ∃ st' log,
      migrateToLatest migs up now st = .ok (st', log) ∧
      log.Pairwise (· < ·) ∧
      (∀ v, v ∈ log ↔ ∃ m ∈ migs, m.version = v ∧ st.version < v) ∧
      st'.version = (log.getLast?).getD st.version ∧
      st'.locked = false ∧
      st'.lastError = st.lastError := by
  have hokl : ∀ m ∈ pendingUp migs st.version, up m = .ok () :=
    fun m hm => hok m ((mem_pendingUp migs st.version m).mp hm).1
  have hrun := runUp_all_ok up (pendingUp migs st.version)
    { st with locked := true, lockedAt := some now } [] hokl
  refine ⟨⟨verAfter (pendingUp migs st.version) st.version, false, some now, st.lastError⟩,
    (pendingUp migs st.version).map Migration.version, ?_, ?_, ?_, ?_, rfl, rfl⟩
  · simp [migrateToLatest, acquireLock, hlock, releaseLock, hrun]
  · exact pairwise_lt_map_version_pendingUp migs st.version hnd
  · intro v
    simp only [List.mem_map, mem_pendingUp]
    constructor
    · rintro ⟨m, ⟨hmem, hlt⟩, rfl⟩
      exact ⟨m, hmem, rfl, hlt⟩
    · rintro ⟨m, hmem, rfl, hlt⟩
      exact ⟨m, ⟨hmem, hlt⟩, rfl⟩
  · exact verAfter_eq_getLastD _ _

theorem migrateToLatest_applies_pending_ascending_witness :
    ∃ st' log,
      migrateToLatest [⟨2, "b"⟩, ⟨1, "a"⟩, ⟨3, "c"⟩] (fun _ => .ok ()) 5
          ⟨1, false, none, none⟩ = .ok (st', log) ∧
      log.Pairwise (· < ·) ∧
      (∀ v, v ∈ log ↔
        ∃ m ∈ ([⟨2, "b"⟩, ⟨1, "a"⟩, ⟨3, "c"⟩] : List Migration),
          m.version = v ∧ (1 : Nat) < v) ∧
      st'.version = (log.getLast?).getD 1 ∧
      st'.locked = false ∧
      st'.lastError = none :=
  migrateToLatest_applies_pending_ascending
    [⟨2, "b"⟩, ⟨1, "a"⟩, ⟨3, "c"⟩] (fun _ => .ok ()) 5
    ⟨1, false, none, none⟩ rfl (fun _ _ => rfl) (by decide)

/-- C2: when two independent runners invoke `migrateToLatest()`
concurrently against an unlocked status, lock acquisition is the single
atomic persisted step: the first runner's acquisition succeeds and sets
the lock, and while it is held the other runner's whole
`migrateToLatest()` call fails immediately with the lock-conflict error
(no migration step of the loser runs, and nothing retries). -/
theorem concurrent_migrateToLatest_one_acquires
    (migs : List Migration) (up : Migration → Except String Unit)
    (now1 now2 : Nat) (st : MigrationStatus) (hlock : st.locked = false) :
    ∃ st1, acquireLock now1 st = .ok st1 ∧ st1.locked = true ∧
      migrateToLatest migs up now2 st1 = .error .lockConflict := by
  refine ⟨{ st with locked := true, lockedAt := some now1 }, ?_, rfl, ?_⟩
  · simp [acquireLock, hlock]
  · simp [migrateToLatest, acquireLock]

theorem concurrent_migrateToLatest_one_acquires_witness :
    ∃ st1, acquireLock 7 ⟨3, false, none, none⟩ = .ok st1 ∧ st1.locked = true ∧
      migrateToLatest [⟨4, "x"⟩] (fun _ => .ok ()) 8 st1 = .error .lockConflict :=
  concurrent_migrateToLatest_one_acquires [⟨4, "x"⟩] (fun _ => .ok ()) 7 8
    ⟨3, false, none, none⟩ rfl

/-- C3: when a migration run fails at some step, the persisted status
records in `lastError` the source version (the version persisted by the
last successful step, or the initial stored version) and the failing
step's message; only the steps before the failure were applied (neither
the failing migration's version nor any later pending version appears in
the applied log), the stored version still reflects every step that
succeeded before the failure, and the lock flag is cleared. -/
theorem migrateToLatest_failure_records_lastError
    (migs : List Migration) (up : Migration → Except String Unit) (now : Nat)
    (st : MigrationStatus) (hlock : st.locked = false)
    (done : List Migration) (f : Migration) (rest : List Migration) (msg : String)
    (hp : pendingUp migs st.version = done ++ f :: rest)
    (hdone : ∀ m ∈ done, up m = .ok ())
    (hf : up f = .error msg)
    (hnd : (migs.map Migration.version).Nodup) :
    ∃ st' log,
      migrateToLatest migs up now st = .ok (st', log) ∧
      log = done.map Migration.version ∧
      st'.version = (log.getLast?).getD st.version ∧
      st'.lastError = some ⟨(log.getLast?).getD st.version, msg⟩ ∧
      st'.locked = false ∧
      f.version ∉ log ∧
      (∀ m ∈ rest, m.version ∉ log) := by
  have hrun := runUp_fails_at up done f rest
    { st with locked := true, lockedAt := some now } [] msg hdone hf
  have hndp : ((pendingUp migs st.version).map Migration.version).Nodup :=
    nodup_map_version_pendingUp migs st.version hnd
  rw [hp] at hndp
  rw [List.map_append, List.map_cons] at hndp
  have hdisj := (List.nodup_append.mp hndp).2.2
  have hglast : ((done.map Migration.version).getLast?).getD st.version =
      verAfter done st.version := (verAfter_eq_getLastD done st.version).symm
  refine ⟨⟨verAfter done st.version, false, some now,
      some ⟨verAfter done st.version, msg⟩⟩,
    done.map Migration.version, ?_, rfl, ?_, ?_, rfl, ?_, ?_⟩
  · simp [migrateToLatest, acquireLock, hlock, releaseLock, hp, hrun]
  · rw [hglast]
  · rw [hglast]
  · intro hmem
    exact hdisj hmem (List.mem_cons_self f.version _)
  · intro m hm hmem
    exact hdisj hmem (List.mem_cons_of_mem f.version
      (List.mem_map_of_mem Migration.version hm))

theorem migrateToLatest_failure_records_lastError_witness :
    ∃ st' log,
      migrateToLatest [⟨1, "a"⟩, ⟨2, "b"⟩, ⟨3, "c"⟩]
          (fun m => if m.version = 2 then .error "boom" else .ok ()) 9
          ⟨0, false, none, none⟩ = .ok (st', log) ∧
      log = [⟨1, "a"⟩].map Migration.version ∧
      st'.version = (log.getLast?).getD 0 ∧
      st'.lastError = some ⟨(log.getLast?).getD 0, "boom"⟩ ∧
      st'.locked = false ∧
      (2 : Nat) ∉ log ∧
      (∀ m ∈ ([⟨3, "c"⟩] : List Migration), m.version ∉ log) :=
  migrateToLatest_failure_records_lastError
    [⟨1, "a"⟩, ⟨2, "b"⟩, ⟨3, "c"⟩]
    (fun m => if m.version = 2 then .error "boom" else .ok ()) 9
    ⟨0, false, none, none⟩ rfl
    [⟨1, "a"⟩] ⟨2, "b"⟩ [⟨3, "c"⟩] "boom"
    (by decide)
    (by intro m hm; rcases List.mem_singleton.mp hm with rfl; rfl)
    rfl (by decide)

theorem mem_pendingUpTo (migs : List Migration) (cur target : Nat) (m : Migration) :
    m ∈ pendingUpTo migs cur target ↔
      m ∈ migs ∧ cur < m.version ∧ m.version ≤ target := by
  simp [pendingUpTo, List.mem_insertionSort, List.mem_filter, and_assoc]

theorem sorted_pendingUpTo (migs : List Migration) (cur target : Nat) :
    List.Sorted byVersionLE (pendingUpTo migs cur target) :=
  List.sorted_insertionSort byVersionLE _

theorem mem_pendingDown (migs : List Migration) (target cur : Nat) (m : Migration) :
    m ∈ pendingDown migs target cur ↔
      m ∈ migs ∧ target < m.version ∧ m.version ≤ cur := by
  simp [pendingDown, List.mem_reverse, List.mem_insertionSort, List.mem_filter, and_assoc]

theorem sorted_verAfter_eq (v : Nat) :
    ∀ (l : List Migration) (d : Nat), l.Pairwise byVersionLE →
      (∃ m ∈ l, m.version = v) → (∀ m ∈ l, m.version ≤ v) →
      verAfter l d = v
  | [], _, _, hv, _ => by
    rcases hv with ⟨m, hm, _⟩
    exact absurd hm (List.not_mem_nil m)
  | [a], _, _, hv, _ => by
    rcases hv with ⟨m, hm, rfl⟩
    rcases List.mem_singleton.mp hm with rfl
    rfl
  | a :: b :: t, d, hs, hv, hub => by
    rw [verAfter_cons]
    have hs' := (List.pairwise_cons.mp hs).2
    have hhead := (List.pairwise_cons.mp hs).1
    have hub' : ∀ m ∈ b :: t, m.version ≤ v :=
      fun m hm => hub m (List.mem_cons_of_mem a hm)
    refine sorted_verAfter_eq v (b :: t) a.version hs' ?_ hub'
    rcases hv with ⟨m, hm, rfl⟩
    rcases List.mem_cons.mp hm with rfl | hmt
    · exact ⟨b, List.mem_cons_self b t,
        Nat.le_antisymm (hub b (List.mem_cons_of_mem m (List.mem_cons_self b t)))
          (hhead b (List.mem_cons_self b t))⟩
    · exact ⟨m, hmt, rfl⟩

theorem runDown_all_ok (down : Migration → Except String Unit) (target : Nat) :
    ∀ (l : List Migration) (st : MigrationStatus) (log : List Nat),
      l ≠ [] → (∀ m ∈ l, down m = .ok ()) →
      runDown down target l st log =
        ({ st with version := target }, log ++ l.map Migration.version)
  | [], _, _, hne, _ => absurd rfl hne
  | [m], st, log, _, h => by
    rw [runDown, h m (List.mem_singleton.mpr rfl)]
    rfl
  | m :: m' :: t, st, log, _, h => by
    rw [runDown, h m (List.mem_cons_self m (m' :: t)),
      runDown_all_ok down target (m' :: t) _ _ (by simp)
        (fun x hx => h x (List.mem_cons_of_mem m hx))]
    simp

/-- After a successful `migrateTo(v)` call, when the target version `v`
is registered the stored version is `v` itself, except in the backward
direction when no registered migration lies in `(v, stored]`, where the
stored version is untouched. -/
theorem migrateTo_first_call
    (migs : List Migration) (up down : Migration → Except String Unit)
    (v now : Nat) (st : MigrationStatus)
    (hlock : st.locked = false)
    (hup : ∀ m ∈ migs, up m = .ok ())
    (hdown : ∀ m ∈ migs, down m = .ok ())
    (hv : ∃ m ∈ migs, m.version = v) :
    ∃ st1 log1,
      migrateTo migs up down v now st = .ok (st1, log1) ∧
      st1.locked = false ∧
      (st1.version = v ∨
        (st1.version = st.version ∧ v < st.version ∧
          pendingDown migs v st.version = [])) := by
  rcases Nat.lt_trichotomy st.version v with hlt | heq | hgt
  · have hokl : ∀ m ∈ pendingUpTo migs st.version v, up m = .ok () :=
      fun m hm => hup m ((mem_pendingUpTo migs st.version v m).mp hm).1
    have hrun := runUp_all_ok up (pendingUpTo migs st.version v)
      { st with locked := true, lockedAt := some now } [] hokl
    have hver : verAfter (pendingUpTo migs st.version v) st.version = v := by
      rcases hv with ⟨m, hm, rfl⟩
      refine sorted_verAfter_eq m.version (pendingUpTo migs st.version m.version)
        st.version (sorted_pendingUpTo migs st.version m.version)
        ⟨m, (mem_pendingUpTo migs st.version m.version m).mpr ⟨hm, hlt, Nat.le_refl _⟩, rfl⟩
        (fun x hx => ((mem_pendingUpTo migs st.version m.version x).mp hx).2.2)
    refine ⟨⟨verAfter (pendingUpTo migs st.version v) st.version, false, some now,
        st.lastError⟩,
      (pendingUpTo migs st.version v).map Migration.version, ?_, rfl, Or.inl hver⟩
    simp [migrateTo, acquireLock, hlock, releaseLock, hrun, hlt]
  · refine ⟨{ st with locked := false, lockedAt := some now }, [], ?_, rfl, Or.inl heq⟩
    subst heq
    simp [migrateTo, acquireLock, hlock, releaseLock]
  · by_cases hpe : pendingDown migs v st.version = []
    · refine ⟨{ st with locked := false, lockedAt := some now }, [], ?_, rfl,
        Or.inr ⟨rfl, hgt, hpe⟩⟩
      have h1 : ¬ st.version < v := Nat.lt_asymm hgt
      simp [migrateTo, acquireLock, hlock, releaseLock, h1, hgt, hpe, runDown]
    · have hokl : ∀ m ∈ pendingDown migs v st.version, down m = .ok () :=
        fun m hm => hdown m ((mem_pendingDown migs v st.version m).mp hm).1
      have hrun := runDown_all_ok down v (pendingDown migs v st.version)
        { st with locked := true, lockedAt := some now } [] hpe hokl
      have h1 : ¬ st.version < v := Nat.lt_asymm hgt
      refine ⟨⟨v, false, some now, st.lastError⟩,
        (pendingDown migs v st.version).map Migration.version, ?_, rfl, Or.inl rfl⟩
      simp [migrateTo, acquireLock, hlock, releaseLock, hrun, h1, hgt]

/-- `migrateTo` at a target equal to the stored version runs no steps. -/
theorem migrateTo_noop_at_target
    (migs : List Migration) (up down : Migration → Except String Unit)
    (v now : Nat) (st : MigrationStatus)
    (hlock : st.locked = false) (hv : st.version = v) :
    migrateTo migs up down v now st =
      .ok ({ st with locked := false, lockedAt := some now }, []) := by
  subst hv
  simp [migrateTo, acquireLock, hlock, releaseLock]

/-- `migrateTo` below the stored version with no registered migration in
between runs no steps. -/
theorem migrateTo_down_empty
    (migs : List Migration) (up down : Migration → Except String Unit)
    (v now : Nat) (st : MigrationStatus)
    (hlock : st.locked = false) (hgt : v < st.version)
    (hpe : pendingDown migs v st.version = []) :
    migrateTo migs up down v now st =
      .ok ({ st with locked := false, lockedAt := some now }, []) := by
  have h1 : ¬ st.version < v := Nat.lt_asymm hgt
  simp [migrateTo, acquireLock, hlock, releaseLock, h1, hgt, hpe, runDown]

/-- C9: for a registered version `v` (with all steps succeeding),
running `migrateTo(v)` and then `migrateTo(v)` again leaves the stored
version unchanged after the second call: the second call applies no
migration and is a no-op on the persisted version. -/
theorem migrateTo_twice_version_stable
    (migs : List Migration) (up down : Migration → Except String Unit)
    (v now1 now2 : Nat) (st : MigrationStatus)
    (hlock : st.locked = false)
    (hup : ∀ m ∈ migs, up m = .ok ())
    (hdown : ∀ m ∈ migs, down m = .ok ())
    (hv : ∃ m ∈ migs, m.version = v) :
    ∃ st1 log1 st2 log2,
      migrateTo migs up down v now1 st = .ok (st1, log1) ∧
      migrateTo migs up down v now2 st1 = .ok (st2, log2) ∧
      st2.version = st1.version ∧ log2 = [] := by
  rcases migrateTo_first_call migs up down v now1 st hlock hup hdown hv with
    ⟨st1, log1, hcall1, hlock1, hcase⟩
  rcases hcase with hveq | ⟨hsame, hgt, hpe⟩
  · exact ⟨st1, log1, { st1 with locked := false, lockedAt := some now2 }, [],
      hcall1, migrateTo_noop_at_target migs up down v now2 st1 hlock1 hveq, rfl, rfl⟩
  · refine ⟨st1, log1, { st1 with locked := false, lockedAt := some now2 }, [],
      hcall1, ?_, rfl, rfl⟩
    refine migrateTo_down_empty migs up down v now2 st1 hlock1 ?_ ?_
    · rw [hsame]; exact hgt
    · rw [hsame]; exact hpe

theorem migrateTo_twice_version_stable_witness :
    ∃ st1 log1 st2 log2,
      migrateTo [⟨1, "a"⟩, ⟨2, "b"⟩] (fun _ => .ok ()) (fun _ => .ok ()) 2 11
          ⟨0, false, none, none⟩ = .ok (st1, log1) ∧
      migrateTo [⟨1, "a"⟩, ⟨2, "b"⟩] (fun _ => .ok ()) (fun _ => .ok ()) 2 12
          st1 = .ok (st2, log2) ∧
      st2.version = st1.version ∧ log2 = [] :=
  migrateTo_twice_version_stable [⟨1, "a"⟩, ⟨2, "b"⟩]
    (fun _ => .ok ()) (fun _ => .ok ()) 2 11 12 ⟨0, false, none, none⟩
    rfl (fun _ _ => rfl) (fun _ _ => rfl)
    ⟨⟨2, "b"⟩, by simp, rfl⟩

/-! ## Lemmas about the event dispatcher -/

theorem foldl_addListener_listeners (beh : Nat → Option String)
    (regs : List (EventKind × Nat)) (em : EventManager (List Nat)) :
    (regs.foldl (fun em p => addListener em p.1 (idHandler beh p.2)) em).listeners =
      em.listeners ++ regs.map (fun p => (p.1, idHandler beh p.2)) := by
  induction regs generalizing em with
  | nil => simp
  | cons p rest ih =>
    rw [List.foldl_cons, ih]
    simp [addListener]

theorem matchingHandlers_registerAll (beh : Nat → Option String)
    (regs : List (EventKind × Nat)) (k : EventKind) :
    matchingHandlers (registerAll beh regs) k =
      (matchingIds regs k).map (idHandler beh) := by
  rw [matchingHandlers, registerAll, foldl_addListener_listeners, matchingIds]
  simp [List.filter_map, List.map_map, Function.comp_def]

theorem runHandlers_idHandlers_ok (beh : Nat → Option String)
    (ids : List Nat) (s : List Nat)
    (h : ∀ i ∈ ids, beh i = none) :
    runHandlers (ids.map (idHandler beh)) s = (s ++ ids, none) := by
  induction ids generalizing s with
  | nil => simp [runHandlers]
  | cons i rest ih =>
    have hi : beh i = none := h i (List.mem_cons_self i rest)
    simp only [List.map_cons, runHandlers, idHandler, hi]
    rw [ih _ (fun j hj => h j (List.mem_cons_of_mem i hj))]
    simp

theorem runHandlers_idHandlers_fail (beh : Nat → Option String)
    (done : List Nat) (j : Nat) (rest : List Nat) (s : List Nat) (e : String)
    (hdone : ∀ i ∈ done, beh i = none) (hj : beh j = some e) :
    runHandlers ((done ++ j :: rest).map (idHandler beh)) s = (s ++ done, some e) := by
  induction done generalizing s with
  | nil => simp [runHandlers, idHandler, hj]
  | cons i done' ih =>
    have hi : beh i = none := hdone i (List.mem_cons_self i done')
    simp only [List.cons_append, List.append_eq, List.map_cons, runHandlers, idHandler, hi]
    rw [ih _ (fun x hx => hdone x (List.mem_cons_of_mem i hx))]
    simp

/-- C8: dispatching an event invokes exactly the handlers registered for
its kind, sequentially in registration order (the invocation log equals
the matching registration sequence), each awaited; and when a handler
raises, dispatch fails with that handler's error and the handlers
registered after it are never invoked (the log stops at the steps before
the failure). -/
theorem dispatch_registration_order_halts_on_error
    (regs : List (EventKind × Nat)) (beh : Nat → Option String)
    (k : EventKind) (s : List Nat) :
    ((∀ i ∈ matchingIds regs k, beh i = none) →
      dispatch (registerAll beh regs) k s = (s ++ matchingIds regs k, none)) ∧
    (∀ done j rest e, matchingIds regs k = done ++ j :: rest →
      (∀ i ∈ done, beh i = none) → beh j = some e →
      dispatch (registerAll beh regs) k s = (s ++ done, some e)) := by
  have hmh : matchingHandlers (registerAll beh regs) k =
      (matchingIds regs k).map (idHandler beh) :=
    matchingHandlers_registerAll beh regs k
  constructor
  · intro h
    rw [dispatch, hmh, runHandlers_idHandlers_ok beh _ s h]
  · intro done j rest e hsplit hdone hj
    rw [dispatch, hmh, hsplit, runHandlers_idHandlers_fail beh done j rest s e hdone hj]

theorem dispatch_registration_order_halts_on_error_witness :
    dispatch (registerAll (fun _ => none)
        [(.beforeInsert, 0), (.afterInsert, 1), (.beforeInsert, 2), (.beforeInsert, 3)])
      .beforeInsert [] = ([0, 2, 3], none) ∧
    dispatch (registerAll (fun i => if i = 2 then some "boom" else none)
        [(.beforeInsert, 0), (.afterInsert, 1), (.beforeInsert, 2), (.beforeInsert, 3)])
      .beforeInsert [] = ([0], some "boom") := by
  constructor
  · exact (dispatch_registration_order_halts_on_error
      [(.beforeInsert, 0), (.afterInsert, 1), (.beforeInsert, 2), (.beforeInsert, 3)]
      (fun _ => none) .beforeInsert []).1 (by decide)
  · exact (dispatch_registration_order_halts_on_error
      [(.beforeInsert, 0), (.afterInsert, 1), (.beforeInsert, 2), (.beforeInsert, 3)]
      (fun i => if i = 2 then some "boom" else none) .beforeInsert []).2
      [0] 2 [3] "boom" (by decide) (by decide) (by decide)

/-- C10: a mutation performed through the raw driver handle applies the
write but dispatches no lifecycle event, while the same mutation
performed through the collection wrapper applies the same write and
dispatches the corresponding before and after events, in that order. -/
theorem raw_bypasses_events_wrapper_dispatches
    (k : MutationKind) (op : List String → List String) (s : CollectionState) :
    (rawMutation op s).docs = op s.docs ∧
    (rawMutation op s).dispatched = s.dispatched ∧
    (wrapperMutation k op s).docs = op s.docs ∧
    (wrapperMutation k op s).dispatched =
      s.dispatched ++ [beforeEventOf k, afterEventOf k] := by
  refine ⟨rfl, rfl, rfl, ?_⟩
  simp [wrapperMutation]

/-- C4: on a collection whose Blameable behavior requires an actor
identity from the context, an insert whose context lacks the `userId`
field fails synchronously before the write (the store is unchanged and an
error is surfaced), while an insert whose context carries `userId`
explicitly set to `null`, or to a value, persists exactly one new
document. -/
theorem blameable_insert_context_rules
    (cfg : BlameableConfig) (store : List FieldMap) (d : FieldMap)
    (ctx1 ctx2 ctx3 : FieldMap) (v : String)
    (h1 : ctx1.lookup cfg.userIdFieldFromContext = none)
    (h2 : ctx2.lookup cfg.userIdFieldFromContext = some none)
    (h3 : ctx3.lookup cfg.userIdFieldFromContext = some (some v)) :
    (∃ e, blameableInsertOne cfg store d ctx1 = (store, some e)) ∧
    (∃ d2, blameableInsertOne cfg store d ctx2 = (store ++ [d2], none)) ∧
    (∃ d3, blameableInsertOne cfg store d ctx3 = (store ++ [d3], none)) := by
  refine ⟨⟨"Missing " ++ cfg.userIdFieldFromContext ++ " in context", ?_⟩,
    ⟨d ++ [(cfg.createdBy, none), (cfg.updatedBy, none)], ?_⟩,
    ⟨d ++ [(cfg.createdBy, some v), (cfg.updatedBy, some v)], ?_⟩⟩
  · simp [blameableInsertOne, blameableOnInsert, blameableResolveUserId, h1]
  · simp [blameableInsertOne, blameableOnInsert, blameableResolveUserId, h2]
  · simp [blameableInsertOne, blameableOnInsert, blameableResolveUserId, h3]

theorem blameable_insert_context_rules_witness :
    (∃ e, blameableInsertOne ⟨"createdBy", "updatedBy", "userId"⟩ []
      [("firstName", some "John")] [] = ([], some e)) ∧
    (∃ d2, blameableInsertOne ⟨"createdBy", "updatedBy", "userId"⟩ []
      [("firstName", some "John")] [("userId", none)] = ([] ++ [d2], none)) ∧
    (∃ d3, blameableInsertOne ⟨"createdBy", "updatedBy", "userId"⟩ []
      [("firstName", some "John")] [("userId", some "XXX")] = ([] ++ [d3], none)) :=
  blameable_insert_context_rules ⟨"createdBy", "updatedBy", "userId"⟩ []
    [("firstName", some "John")] [] [("userId", none)] [("userId", some "XXX")]
    "XXX" rfl (by decide) (by decide)

/-- C5: any exception raised inside a transaction body rolls back every
write of the scope (the store is unchanged and the error propagates); in
particular a transaction of two writes whose second write's listener
raises persists neither write. -/
theorem transact_rollback_on_error
    (store : Store) (body : TxSession → Except String TxSession) (e : String)
    (hb : body { writes := [] } = .error e)
    (w1 w2 : WriteOp) (e2 : String) :
    transact body store = (store, some e) ∧
    transact (fun sess =>
      match sessionWrite w1 (.ok ()) sess with
      | .ok sess1 => sessionWrite w2 (.error e2) sess1
      | .error err => .error err) store = (store, some e2) := by
  constructor
  · rw [transact, hb]
  · rfl

theorem transact_rollback_on_error_witness :
    transact (fun _ => .error "listener failed") [] = ([], some "listener failed") ∧
    transact (fun sess =>
      match sessionWrite (.insertDoc "users" [("firstName", some "John")]) (.ok ()) sess with
      | .ok sess1 =>
          sessionWrite (.updateDoc "posts" "byId" "setTitle") (.error "boom") sess1
      | .error err => .error err) [] = ([], some "boom") :=
  transact_rollback_on_error [] (fun _ => .error "listener failed") "listener failed" rfl
    (.insertDoc "users" [("firstName", some "John")])
    (.updateDoc "posts" "byId" "setTitle") "boom"

/-! ## Lemmas about Nova projection -/

theorem project_cons_of_mem (k b : String) (fields : List String)
    (rest : NovaDoc) (hk : k ∈ fields) :
    project ((k, b) :: rest) fields = (k, b) :: project rest fields := by
  simp [project, List.filter_cons, hk]

theorem project_cons_of_not_mem (k b : String) (fields : List String)
    (rest : NovaDoc) (hk : k ∉ fields) :
    project ((k, b) :: rest) fields = project rest fields := by
  simp [project, List.filter_cons, hk]

theorem lookup_cons_self (k b : String) (l : NovaDoc) :
    ((k, b) :: l).lookup k = some b := by
  simp [List.lookup]

theorem lookup_cons_ne (f k b : String) (l : NovaDoc) (h : ¬ f = k) :
    ((k, b) :: l).lookup f = l.lookup f := by
  have hbeq : (f == k) = false := by
    simpa using h
  simp [List.lookup, hbeq]

theorem lookup_project_of_mem (doc : NovaDoc) (fields : List String) (f : String)
    (hf : f ∈ fields) :
    (project doc fields).lookup f = doc.lookup f := by
  induction doc with
  | nil => rfl
  | cons kv rest ih =>
    rcases kv with ⟨k, b⟩
    by_cases hk : k ∈ fields
    · rw [project_cons_of_mem k b fields rest hk]
      by_cases hkf : f = k
      · subst hkf
        rw [lookup_cons_self, lookup_cons_self]
      · rw [lookup_cons_ne f k b _ hkf, lookup_cons_ne f k b rest hkf]
        exact ih
    · have hkf : ¬ f = k := fun h => hk (h ▸ hf)
      rw [project_cons_of_not_mem k b fields rest hk, ih,
        lookup_cons_ne f k b rest hkf]

theorem lookup_project_of_not_mem (doc : NovaDoc) (fields : List String) (f : String)
    (hf : f ∉ fields) :
    (project doc fields).lookup f = none := by
  induction doc with
  | nil => rfl
  | cons kv rest ih =>
    rcases kv with ⟨k, b⟩
    by_cases hk : k ∈ fields
    · have hkf : ¬ f = k := fun h => hf (h ▸ hk)
      rw [project_cons_of_mem k b fields rest hk, lookup_cons_ne f k b _ hkf]
      exact ih
    · rw [project_cons_of_not_mem k b fields rest hk]
      exact ih

theorem project_project (doc : NovaDoc) (fields : List String) :
    project (project doc fields) fields = project doc fields := by
  induction doc with
  | nil => rfl
  | cons kv rest ih =>
    rcases kv with ⟨k, b⟩
    by_cases hk : k ∈ fields
    · rw [project_cons_of_mem k b fields rest hk,
        project_cons_of_mem k b fields (project rest fields) hk, ih]
    · rw [project_cons_of_not_mem k b fields rest hk]
      exact ih

theorem project_disjoint_nil (doc : NovaDoc) (A B : List String)
    (h : ∀ a ∈ A, a ∉ B) : project (project doc A) B = [] := by
  induction doc with
  | nil => rfl
  | cons kv rest ih =>
    rcases kv with ⟨k, b⟩
    by_cases hk : k ∈ A
    · rw [project_cons_of_mem k b A rest hk,
        project_cons_of_not_mem k b B (project rest A) (h k hk)]
      exact ih
    · rw [project_cons_of_not_mem k b A rest hk]
      exact ih

theorem lookup_append_cases (l1 l2 : NovaDoc) (f : String) :
    (l1 ++ l2).lookup f =
      match l1.lookup f with
      | some v => some v
      | none => l2.lookup f := by
  induction l1 with
  | nil => rfl
  | cons kv rest ih =>
    rcases kv with ⟨k, b⟩
    by_cases hkf : f = k
    · subst hkf
      rw [List.cons_append, lookup_cons_self, lookup_cons_self]
    · rw [List.cons_append, lookup_cons_ne f k b _ hkf,
        lookup_cons_ne f k b rest hkf, ih]

theorem project_append (l1 l2 : NovaDoc) (fields : List String) :
    project (l1 ++ l2) fields = project l1 fields ++ project l2 fields := by
  simp [project, List.filter_append]

/-- C6: a query requesting only a reducer-computed field `f` returns
exactly the document `[(f, value)]` where the value is the reducer's pure
function applied to the projection of the stored document onto its
declared dependencies — so `f` is present and none of the raw dependency
fields are; and when a dependency `d` is also explicitly requested it is
returned with its stored value. -/
theorem reducer_query_computes_and_strips
    (doc : NovaDoc) (reducers : List (String × Reducer)) (f d : String) (r : Reducer)
    (hr : reducers.lookup f = some r)
    (hfd : f ∉ r.dependency)
    (hd : d ∈ r.dependency)
    (hdr : reducers.lookup d = none) :
    novaQuery doc [f] reducers = [(f, r.reduce (project doc r.dependency))] ∧
    (novaQuery doc [f, d] reducers).lookup d = doc.lookup d := by
  have hdisj : ∀ a ∈ r.dependency, a ∉ [f] :=
    fun a ha hmem => hfd ((List.mem_singleton.mp hmem) ▸ ha)
  have hff : fetchFields [f] reducers = r.dependency := by
    simp [fetchFields, hr]
  have hcr : computeReducers [f] reducers (project doc r.dependency) =
      [(f, r.reduce (project (project doc r.dependency) r.dependency))] := by
    simp [computeReducers, hr]
  have hff2 : fetchFields [f, d] reducers = d :: r.dependency := by
    simp [fetchFields, hr, hdr]
  have hcr2 : computeReducers [f, d] reducers (project doc (d :: r.dependency)) =
      [(f, r.reduce (project (project doc (d :: r.dependency)) r.dependency))] := by
    simp [computeReducers, hr, hdr]
  constructor
  · simp only [novaQuery, hff, hcr]
    rw [project_project doc r.dependency, project_append,
      project_disjoint_nil doc r.dependency [f] hdisj]
    simp [project]
  · have hdf : ¬ d = f := fun h => hfd (h ▸ hd)
    have hmem2 : d ∈ [f, d] := by simp
    simp only [novaQuery, hff2, hcr2]
    rw [lookup_project_of_mem _ _ d hmem2, lookup_append_cases,
      lookup_project_of_mem doc (d :: r.dependency) d (List.mem_cons_self d _),
      lookup_cons_ne d f _ _ hdf]
    cases doc.lookup d <;> rfl

theorem reducer_query_computes_and_strips_witness :
    novaQuery [("firstName", "John"), ("lastName", "Smith"), ("age", "33")]
        ["fullName"]
        [("fullName", ⟨["firstName", "lastName"],
          fun dd => ((dd.lookup "firstName").getD "") ++ " " ++
            ((dd.lookup "lastName").getD "")⟩)] =
      [("fullName",
        Reducer.reduce ⟨["firstName", "lastName"],
          fun dd => ((dd.lookup "firstName").getD "") ++ " " ++
            ((dd.lookup "lastName").getD "")⟩
          (project [("firstName", "John"), ("lastName", "Smith"), ("age", "33")]
            (Reducer.dependency ⟨["firstName", "lastName"],
              fun dd => ((dd.lookup "firstName").getD "") ++ " " ++
                ((dd.lookup "lastName").getD "")⟩)))] ∧
    (novaQuery [("firstName", "John"), ("lastName", "Smith"), ("age", "33")]
        ["fullName", "firstName"]
        [("fullName", ⟨["firstName", "lastName"],
          fun dd => ((dd.lookup "firstName").getD "") ++ " " ++
            ((dd.lookup "lastName").getD "")⟩)]).lookup "firstName" =
      ([("firstName", "John"), ("lastName", "Smith"), ("age", "33")] : NovaDoc).lookup
        "firstName" :=
  reducer_query_computes_and_strips
    [("firstName", "John"), ("lastName", "Smith"), ("age", "33")]
    [("fullName", ⟨["firstName", "lastName"],
      fun dd => ((dd.lookup "firstName").getD "") ++ " " ++
        ((dd.lookup "lastName").getD "")⟩)]
    "fullName" "firstName"
    ⟨["firstName", "lastName"],
      fun dd => ((dd.lookup "firstName").getD "") ++ " " ++
        ((dd.lookup "lastName").getD "")⟩
    rfl (by decide) (by decide) rfl

/-- C7: a query requesting an expander field `f` substitutes the
expander's declared raw fields into the underlying query: the returned
document is exactly the projection of the stored document onto those raw
fields (each declared raw field is returned with its stored value), and
the engine itself does not produce the computed field — it is absent from
the engine's result, left to the document model. -/
theorem expander_query_substitutes_raw_fields
    (doc : NovaDoc) (expanders : List (String × List String))
    (f : String) (raws : List String)
    (he : expanders.lookup f = some raws)
    (hf : f ∉ raws) :
    novaQueryExpand doc [f] expanders = project doc raws ∧
    (∀ x ∈ raws, (novaQueryExpand doc [f] expanders).lookup x = doc.lookup x) ∧
    (novaQueryExpand doc [f] expanders).lookup f = none := by
  have hef : expandFields [f] expanders = raws := by
    simp [expandFields, he]
  refine ⟨?_, ?_, ?_⟩
  · rw [novaQueryExpand, hef]
  · intro x hx
    rw [novaQueryExpand, hef]
    exact lookup_project_of_mem doc raws x hx
  · rw [novaQueryExpand, hef]
    exact lookup_project_of_not_mem doc raws f hf

theorem expander_query_substitutes_raw_fields_witness :
    novaQueryExpand [("firstName", "John"), ("lastName", "Smith"), ("age", "33")]
        ["fullName"] [("fullName", ["firstName", "lastName"])] =
      project [("firstName", "John"), ("lastName", "Smith"), ("age", "33")]
        ["firstName", "lastName"] ∧
    (∀ x ∈ ["firstName", "lastName"],
      (novaQueryExpand [("firstName", "John"), ("lastName", "Smith"), ("age", "33")]
        ["fullName"] [("fullName", ["firstName", "lastName"])]).lookup x =
      ([("firstName", "John"), ("lastName", "Smith"), ("age", "33")] : NovaDoc).lookup x) ∧
    (novaQueryExpand [("firstName", "John"), ("lastName", "Smith"), ("age", "33")]
        ["fullName"] [("fullName", ["firstName", "lastName"])]).lookup "fullName" =
      none :=
  expander_query_substitutes_raw_fields
    [("firstName", "John"), ("lastName", "Smith"), ("age", "33")]
    [("fullName", ["firstName", "lastName"])]
    "fullName" ["firstName", "lastName"] (by decide) (by decide)

end MongoBundle
